import Mathlib

/-!
Verification of the SFCC-to-Shopify image pipeline.

The development shallowly embeds the pipeline's pure decision logic:
the view classifier (`extractImageView`), the per-product view map
construction (`buildViews`), the inventory partition and sort
(`splitGrayEntries`, `sortViews`), the output materializer
(`copyImagesToOutput`, and the older `find`-based revision
`copyImagesToOutputP0`), the startup directory handling of both
revisions, and the Matrixify manifest generator
(`parseImageFields`, `emitRows`, `processInvRow`,
`generateMatrixifyCSV`).

File I/O, XML traversal and image metadata probing are external
collaborators; the probe outcome is passed in as an explicit
`Option (Nat × Nat)` parameter, and CSV cells are passed as the strings
the code would read.
-/

/-! ## JavaScript-style string helpers (over `List Char`) -/

/-- Build a string from a character list. -/
def ofChars (l : List Char) : String := ⟨l⟩

/-- Model of `String.prototype.toLowerCase` (ASCII-relevant part). -/
def myLower (s : String) : String := ofChars (s.data.map Char.toLower)

/-- Model of `String.prototype.startsWith`. -/
def jsStartsWith (s p : String) : Bool := p.data.isPrefixOf s.data

/-- Model of `String.prototype.endsWith`. -/
def jsEndsWith (s p : String) : Bool := p.data.isSuffixOf s.data

/-- Model of `String.prototype.includes`: contiguous-substring test. -/
def jsIncludes (s p : String) : Bool := decide (p.data <:+: s.data)

/-- Auxiliary splitter: accumulates the current field (reversed). -/
def splitOnCharAux (c : Char) : List Char → List Char → List (List Char)
  | [], acc => [acc.reverse]
  | x :: xs, acc =>
    if x = c then acc.reverse :: splitOnCharAux c xs []
    else splitOnCharAux c xs (x :: acc)

/-- Model of `String.prototype.split` on a single separator character. -/
def splitOnChar (c : Char) (l : List Char) : List (List Char) :=
  splitOnCharAux c l []

/-- Model of `s.replace(/_+$/, '')`: drop every trailing underscore. -/
def dropTrailingUnderscores (l : List Char) : List Char :=
  (l.reverse.dropWhile (· = '_')).reverse

/-- Model of `s.replace(/^_/, '')`: drop at most one leading underscore. -/
def dropLeadingUnderscore : List Char → List Char
  | '_' :: rest => rest
  | l => l

/-- Model of `s.replace(pat, '')` for a plain-string pattern: remove the
first occurrence of `pat`, if any. -/
def removeFirst (pat : List Char) : List Char → List Char
  | [] => []
  | x :: xs =>
    if pat.isPrefixOf (x :: xs) then (x :: xs).drop pat.length
    else x :: removeFirst pat xs

/-- Model of `String.prototype.trim`. -/
def jsTrim (s : String) : String :=
  ofChars (((s.data.dropWhile Char.isWhitespace).reverse.dropWhile Char.isWhitespace).reverse)

/-- The final global dash-to-underscore replacement of the classifier. -/
def dashRepl (s : String) : String :=
  ofChars (s.data.map (fun c => if c = '-' then '_' else c))

/-! ## Path helpers (POSIX, as used by the pipeline) -/

/-- Path segments, split on `/`. -/
def pathSegments (p : String) : List (List Char) := splitOnChar '/' p.data

/-- The last path segment: `path.basename` before extension stripping. -/
def fileSegmentOf (p : String) : List Char := (pathSegments p).getLastD []

/-- Model of `path.basename(p, path.extname(p))`: drop the extension
starting at the last dot, unless that dot is the first character of the
file name. -/
def baseNameNoExt (l : List Char) : List Char :=
  match l.reverse.findIdx? (fun c => c = '.') with
  | none => l
  | some j =>
    let i := l.length - 1 - j
    if i = 0 then l else l.take i

/-- Model of `path.dirname(p).split(path.sep).pop().toLowerCase()`. -/
def folderNameOf (p : String) : String :=
  let segs := pathSegments p
  if segs.length ≤ 1 then "."
  else ofChars ((segs.getD (segs.length - 2) []).map Char.toLower)

/-! ## View Classifier (`extractImageView`) -/

/-- Folder names that carry no color semantics. -/
def ignoredFolders : List String := ["spins", "spin", "swatch"]

/-- Ordered size-label suffixes stripped from the raw view token. -/
def sizeLabels : List String := ["extralarge", "large", "regular", "thumbnail"]

/-- Numeric-code-to-semantic-label table (`viewLabelMap` in the source). -/
def viewLabelMap (v : String) : Option String :=
  if v = "2" then some "outsole"
  else if v = "3" then some "front"
  else if v = "4" then some "back"
  else if v = "5" then some "instep_profile"
  else if v = "6" then some "birdseye"
  else if v = "8" then some "profile"
  else if v = "9" then some "lifestyle"
  else none

/-- Strip the first matching size-label suffix, then trailing underscores
(the `for (const label of sizeLabels)` loop with `break`). -/
def stripSizeLabel : List String → String → String
  | [], v => v
  | lbl :: rest, v =>
    if jsEndsWith v lbl then
      ofChars (dropTrailingUnderscores (v.data.take (v.data.length - lbl.data.length)))
    else stripSizeLabel rest v

/-- The dimension string `${width}x${height}` built from a successful probe. -/
def dimString (w h : Nat) : String := toString w ++ "x" ++ toString h

/-- Color-bucket computation of the classifier: ignored folders force
`default`; `gray` and `white` pass through; everything else is `default`. -/
def colorBucket (imagePath : String) : String :=
  let folderName := folderNameOf imagePath
  if ignoredFolders.contains folderName then "default"
  else if folderName = "gray" ∨ folderName = "white" then folderName
  else "default"

/-- Semantic-view computation of the classifier: strip the product-id
filename part, one leading underscore, lowercase, strip a size label,
apply the empty fallback and the numeric-code table. -/
def semanticView (productId imagePath : String) : String :=
  let fileName := ofChars (baseNameNoExt (fileSegmentOf imagePath))
  let base := if jsStartsWith fileName productId then
      ofChars (fileName.data.drop productId.data.length)
    else fileName
  let view0 := myLower (ofChars (dropLeadingUnderscore base.data))
  let view1 := stripSizeLabel sizeLabels view0
  let view2 := if view1.data.all Char.isWhitespace then "main" else view1
  match viewLabelMap view2 with
  | some lbl => lbl
  | none => view2

/-- The View Classifier. The dimension probe is the external image
inspector; `probe = none` models a failed metadata read. -/
def extractImageView (productId imagePath : String) (probe : Option (Nat × Nat)) : String :=
  let fileName := ofChars (baseNameNoExt (fileSegmentOf imagePath))
  let folderName := folderNameOf imagePath
  let baseFolder :=
    if ignoredFolders.contains folderName then "default"
    else if folderName = "gray" ∨ folderName = "white" then folderName
    else "default"
  let imageDimensions := match probe with
    | some (w, h) => dimString w h
    | none => ""
  let base := if jsStartsWith fileName productId then
      ofChars (fileName.data.drop productId.data.length)
    else fileName
  let view0 := myLower (ofChars (dropLeadingUnderscore base.data))
  let view1 := stripSizeLabel sizeLabels view0
  let view2 := if view1.data.all Char.isWhitespace then "main" else view1
  let view3 := match viewLabelMap view2 with
    | some lbl => lbl
    | none => view2
  let viewName :=
    if imageDimensions = "" then baseFolder ++ "-" ++ view3
    else baseFolder ++ "-" ++ view3 ++ "-" ++ imageDimensions
  dashRepl viewName

/-! ## Per-product view map (`processProductViews`) -/

/-- Canonical output filename for a product/view pair. -/
def mkFilename (pid view : String) : String := pid ++ "_" ++ view ++ ".jpg"

/-- Model of `Map.prototype.set` on an association list: an existing key
keeps its position and gets the new value; a new key is appended. -/
def mapSet (m : List (String × String)) (k v : String) : List (String × String) :=
  if m.any (fun e => e.1 = k) then m.map (fun e => if e.1 = k then (k, v) else e)
  else m ++ [(k, v)]

/-- The `views` map built per product: classify each image path in order
and `set` it into the map. `classify` is the classifier with the probe
outcome fixed per path. -/
def buildViews (classify : String → String) (images : List String) : List (String × String) :=
  images.foldl (fun m p => mapSet m (classify p) p) []

/-- First-match association lookup (`Map.prototype.get`). -/
def alookup : List (String × String) → String → Option String
  | [], _ => none
  | e :: t, k => if e.1 = k then some e.2 else alookup t k

/-! ## Output Materializer -/

/-- The materializer of the current revision: one copy per `views` entry,
destination `{productId}_{view}.jpg`, source the path stored under that
view key. Returns the (destination, source) pairs. -/
def copyImagesToOutput (pid : String) (views : List (String × String)) : List (String × String) :=
  views.map (fun e => (mkFilename pid e.1, e.2))

/-- The materializer of the older revision, where `views` is a list of
keys only: the source is selected by `images.find` with a predicate that
tests `filename.includes(view)` and ignores the candidate path. -/
def copyImagesToOutputP0 (pid : String) (views images : List String) : List (String × String) :=
  views.filterMap (fun v =>
    match images.find? (fun _ => jsIncludes (mkFilename pid v) v) with
    | some m => some (mkFilename pid v, m)
    | none => none)

/-! ## Inventory Aggregator (`exportViewCSV`) -/

/-- One pushed inventory entry: output filename plus its view key. -/
structure VEntry where
  filename : String
  view : String
deriving DecidableEq

/-- Entries pushed per product, in `views` iteration order. -/
def mkEntries (pid : String) (views : List (String × String)) : List VEntry :=
  views.map (fun e => ⟨mkFilename pid e.1, e.1⟩)

/-- Partition of entries into the gray and non-gray lists, by the
`view.startsWith('gray_')` test, preserving push order. -/
def splitGrayEntries : List VEntry → List VEntry × List VEntry
  | [] => ([], [])
  | e :: rest =>
    let p := splitGrayEntries rest
    if jsStartsWith e.view "gray_" then (e :: p.1, p.2) else (p.1, e :: p.2)

/-- Preference table used for the non-gray list. -/
def defaultPreferredOrder : List String :=
  ["main", "lifestyle", "outsole", "profile", "front", "back", "instep_profile", "birdseye"]

/-- Preference table used for the gray list. -/
def grayPreferredOrder : List String :=
  ["profile", "lifestyle", "main", "instep_profile", "doubleheel", "doublequarter", "outsole"]

/-- The comparator's bucket strip: remove one leading `gray_`, `default_`
or `white_`. -/
def stripBucket (v : String) : String :=
  if jsStartsWith v "gray_" then ofChars (v.data.drop 5)
  else if jsStartsWith v "default_" then ofChars (v.data.drop 8)
  else if jsStartsWith v "white_" then ofChars (v.data.drop 6)
  else v

/-- The comparator's dimension strip: remove a trailing
underscore-digits-x-digits token, scanning from the end of the string. -/
def stripDimSuffix (v : String) : String :=
  let r := v.data.reverse
  let d1 := r.takeWhile Char.isDigit
  match r.drop d1.length with
  | 'x' :: r2 =>
    let d2 := r2.takeWhile Char.isDigit
    match r2.drop d2.length with
    | '_' :: rest =>
      if 0 < d1.length ∧ 0 < d2.length then ofChars rest.reverse else v
    | _ => v
  | _ => v

/-- Semantic token of a view key, as the comparator computes it. -/
def semTok (v : String) : String := stripDimSuffix (stripBucket v)

/-- Model of `Array.prototype.indexOf`: first index, `-1` when absent. -/
def idxOf (order : List String) (t : String) : Int :=
  match order.findIdx? (fun s => s = t) with
  | some i => (i : Int)
  | none => -1

/-- Sign model of `String.prototype.localeCompare` (lexicographic). -/
def localeCmpInt (a b : String) : Int :=
  if a < b then -1 else if b < a then 1 else 0

/-- The inventory sort comparator. -/
def viewCmp (order : List String) (a b : VEntry) : Int :=
  if idxOf order (semTok a.view) = -1 ∧ idxOf order (semTok b.view) = -1 then
    localeCmpInt a.view b.view
  else if idxOf order (semTok a.view) = -1 then 1
  else if idxOf order (semTok b.view) = -1 then -1
  else idxOf order (semTok a.view) - idxOf order (semTok b.view)

/-- The total preorder induced by the comparator. -/
def viewLE (order : List String) (a b : VEntry) : Prop := viewCmp order a b ≤ 0

instance (order : List String) (a b : VEntry) : Decidable (viewLE order a b) :=
  inferInstanceAs (Decidable (viewCmp order a b ≤ 0))

/-- The aggregator's sort: a stable sort consistent with the comparator. -/
def sortViews (order : List String) (l : List VEntry) : List VEntry :=
  l.insertionSort (viewLE order)

/-- The per-product inventory cells: sorted non-gray filenames and sorted
gray filenames. -/
def inventoryFilenames (pid : String) (views : List (String × String)) : List String × List String :=
  let parts := splitGrayEntries (mkEntries pid views)
  ((sortViews defaultPreferredOrder parts.2).map VEntry.filename,
   (sortViews grayPreferredOrder parts.1).map VEntry.filename)

/-! ## Shopify Manifest Generator (`generateMatrixifyCSV`) -/

/-- A style-map entry: Shopify id and product title. -/
structure StyleInfo where
  id : String
  title : String
deriving DecidableEq

/-- One parsed inventory CSV row. -/
structure InvRow where
  style : String
  nonGrayRaw : String
  grayRaw : String
deriving DecidableEq

/-- One emitted manifest row (the variable CSV fields). -/
structure MRow where
  rowId : String
  src : String
  position : Nat
  width : String
  height : String
  altText : String
  styleLabel : String
deriving DecidableEq

/-- Character rewriting step of `sanitizeText`: curly apostrophe and curly
quotes to their ASCII forms. -/
def sanitizeChar (c : Char) : Char :=
  if c = Char.ofNat 0x2019 then Char.ofNat 0x27
  else if c = Char.ofNat 0x201C ∨ c = Char.ofNat 0x201D then Char.ofNat 0x22
  else c

/-- Characters removed by `sanitizeText`: control characters and
zero-width spaces. -/
def isStrippedChar (c : Char) : Bool :=
  c.val ≤ 0x1F || (0x7F ≤ c.val && c.val ≤ 0x9F) ||
    (0x200B ≤ c.val && c.val ≤ 0x200D) || c.val = 0xFEFF

/-- The `sanitizeText` helper: rewrite, strip, trim. -/
def sanitizeText (s : String) : String :=
  jsTrim (ofChars ((s.data.map sanitizeChar).filter (fun c => !isStrippedChar c)))

/-- The trailing filename segment with the first `.jpg` removed: the
generator's `dimPart`. -/
def lastSegNoJpg (parts : List String) : String :=
  ofChars (removeFirst ".jpg".data (parts.getLastD "").data)

/-- The generator's filename re-parse: width, height and view token
recovered from an inventory filename by splitting on underscores. -/
def parseImageFields (filename : String) : String × String × String :=
  let parts := (splitOnChar '_' filename.data).map ofChars
  let dimPart := lastSegNoJpg parts
  let viewTok := parts.getD (parts.length - 2) ""
  if dimPart.data.contains 'x' then
    let wh := splitOnChar 'x' dimPart.data
    (ofChars (wh.getD 0 []), ofChars (wh.getD 1 []), viewTok)
  else ("", "", viewTok)

/-- Build one manifest row; `pos` is the value of `position` when the row
is pushed, and the style label tests the already-incremented counter. -/
def mkMRow (style : String) (info : StyleInfo) (pos : Nat) (trimmed : String) : MRow :=
  let f := parseImageFields trimmed
  let cleanView := sanitizeText f.2.2
  let viewText := if cleanView = "default" then "" else " - " ++ cleanView
  ⟨info.id, trimmed, pos, f.1, f.2.1, sanitizeText info.title ++ viewText,
    if pos + 1 = 2 then style else ""⟩

/-- Emit the manifest rows of one product: blank items are skipped without
consuming a position; others are pushed with the 1-based counter. -/
def emitRows (style : String) (info : StyleInfo) : Nat → List String → List MRow
  | _, [] => []
  | pos, img :: rest =>
    if jsTrim img = "" then emitRows style info pos rest
    else mkMRow style info pos (jsTrim img) :: emitRows style info (pos + 1) rest

/-- Process one inventory row: skip it when the style is absent from the
style map; otherwise split the gray cell if non-empty, else the non-gray
cell, and emit rows from position 1. -/
def processInvRow (styleMap : String → Option StyleInfo) (row : InvRow) : List MRow :=
  match styleMap row.style with
  | none => []
  | some info =>
    let imageList :=
      if row.grayRaw ≠ "" then (splitOnChar ',' row.grayRaw.data).map ofChars
      else (splitOnChar ',' row.nonGrayRaw.data).map ofChars
    emitRows row.style info 1 imageList

/-- The manifest generator: `none` inputs model a missing style-map CSV or
a missing inventory CSV, each of which suppresses the output entirely. -/
def generateMatrixifyCSV (styleMapData : Option (String → Option StyleInfo))
    (inventory : Option (List InvRow)) : Option (List MRow) :=
  match styleMapData with
  | none => none
  | some sm =>
    match inventory with
    | none => none
    | some rows => some (rows.map (processInvRow sm)).flatten

/-! ## Startup directory handling of the two revisions -/

/-- Outcome of the startup directory phase. -/
inductive StartupResult
  | exited (code : Nat)
  | proceeded
deriving DecidableEq

/-- Startup of the older revision: each required directory is checked in
turn and a missing one exits the process with status 1. -/
def startupP0 (ex : String → Bool) : StartupResult :=
  if !ex "sfcc-catalogs" then .exited 1
  else if !ex "sfcc-styles" then .exited 1
  else if !ex "sfcc-images" then .exited 1
  else if !ex "sfcc-images-output" then .exited 1
  else .proceeded

/-- Directories the current revision creates when absent. -/
def mkdirDirsIndex : List String :=
  ["sfcc-catalogs", "sfcc-styles", "sfcc-images", "sfcc-images-output", "matrixify"]

/-- Startup of the current revision: every missing directory is created
with `mkdirSync` and the run always proceeds. Returns the outcome and the
directory-existence state after the loop. -/
def startupIndex (ex : String → Bool) : StartupResult × (String → Bool) :=
  (.proceeded, fun d => ex d || mkdirDirsIndex.contains d)

/-! ## Concrete fixtures used by counterexamples and witnesses -/

/-- A one-entry style map for concrete evaluations. -/
def styleMapEx : String → Option StyleInfo :=
  fun st => if st = "RB001" then some ⟨"1001", "Boot"⟩ else none

/-- A concrete inventory row whose gray cell holds two filenames. -/
def invRowEx : InvRow :=
  ⟨"RB001", "", "RB001_gray_profile_100x200.jpg, RB001_gray_main_100x200.jpg"⟩

/-! ## Theorems -/

/-- C1. Scenario A of the spec claims the classifier returns
`gray_instep_profile_800x600` for path `gray/ABC123_instepprofile_large.jpg`
with product id `ABC123` and probed dimensions 800×600. The code does not:
the filename token `instepprofile` is not a numeric code, so the
code-to-label table never rewrites it to `instep_profile`. -/
theorem scenarioA_claimed_key_is_wrong :
    extractImageView "ABC123" "gray/ABC123_instepprofile_large.jpg" (some (800, 600)) ≠
      "gray_instep_profile_800x600" := by
  decide

/-- C1 (amended). For the Scenario A input the classifier returns
`gray_instepprofile_800x600`: the `large` size suffix and the trailing
underscore are stripped, but the token `instepprofile` passes through
unchanged. -/
theorem scenarioA_key_eq :
    extractImageView "ABC123" "gray/ABC123_instepprofile_large.jpg" (some (800, 600)) =
      "gray_instepprofile_800x600" := by
  decide

/-- C2. The spec claims the Style column is populated only on a product's
second emitted row. On a concrete product with two images the generator
puts the style on the first row and the empty string on the second: the
JavaScript `position++` runs before the `position === 2` test, so the test
is true exactly when the row being pushed is the first one. -/
theorem matrixify_style_label_cx :
    (processInvRow styleMapEx invRowEx).map MRow.styleLabel = ["RB001", ""] ∧
      ("RB001" : String) ≠ "" := by
  constructor
  · decide
  · decide

/-- C3. With every directory missing, the current revision's startup
proceeds (it creates the directories) instead of exiting with a non-zero
status, while the older revision exits with status 1. -/
theorem startup_missing_dirs_cx :
    (startupIndex (fun _ => false)).1 = StartupResult.proceeded ∧
      startupP0 (fun _ => false) = StartupResult.exited 1 := by
  constructor
  · rfl
  · decide

/-- C4. In the older revision the materializer's `images.find` predicate
ignores the candidate path, so every view is copied from the product's
first image: here the view `default_profile`, derived from the second
image, is copied from the first one. -/
theorem copy_heuristic_cx :
    copyImagesToOutputP0 "RB001" ["default_main", "default_profile"]
        ["default/RB001.jpg", "default/RB001_8.jpg"] =
      [("RB001_default_main.jpg", "default/RB001.jpg"),
       ("RB001_default_profile.jpg", "default/RB001.jpg")] ∧
      ("default/RB001.jpg" : String) ≠ "default/RB001_8.jpg" := by
  constructor
  · decide
  · decide

/-- C10. A probe-failure view key whose semantic token contains the letter
`x` defeats the generator's `includes('x')` test: the filename
`ABC123_default_box.jpg` (classified from `default/ABC123_box.jpg` with a
failed probe) parses to width `bo` and height the empty string, not to
empty width and height. -/
theorem manifest_parse_x_cx :
    extractImageView "ABC123" "default/ABC123_box.jpg" none = "default_box" ∧
      parseImageFields "ABC123_default_box.jpg" = ("bo", "", "default") ∧
      ("bo" : String) ≠ "" := by
  refine ⟨?_, ?_, ?_⟩ <;> decide

/-- C3 (amended). Missing top-level directories abort only in the older
revision: there any of the three missing input directories exits the
process with status 1, while the current revision always proceeds and
ensures the directories exist; a missing style-map CSV or inventory CSV
merely suppresses the manifest output. -/
theorem startup_behavior :
    (∀ ex : String → Bool,
        (ex "sfcc-catalogs" = false ∨ ex "sfcc-styles" = false ∨ ex "sfcc-images" = false) →
        startupP0 ex = StartupResult.exited 1) ∧
    (∀ ex : String → Bool, (startupIndex ex).1 = StartupResult.proceeded ∧
        ∀ d ∈ mkdirDirsIndex, (startupIndex ex).2 d = true) ∧
    (∀ inv, generateMatrixifyCSV none inv = none) ∧
    (∀ sm, generateMatrixifyCSV (some sm) none = none) := by
  refine ⟨?_, ?_, ?_, ?_⟩
  · intro ex h
    rcases h with h | h | h
    · simp [startupP0, h]
    · cases hc : ex "sfcc-catalogs" <;> simp [startupP0, hc, h]
    · cases hc : ex "sfcc-catalogs" <;> cases hs : ex "sfcc-styles" <;>
        simp [startupP0, hc, hs, h]
  · intro ex
    refine ⟨rfl, ?_⟩
    intro d hd
    simp only [startupIndex, Bool.or_eq_true]
    exact Or.inr (by simpa using hd)
  · intro inv; rfl
  · intro sm; rfl

/-- C3 witness: with no directory present the older revision exits with
status 1, and a missing style map yields no manifest output. -/
theorem startup_behavior_witness :
    startupP0 (fun _ => false) = StartupResult.exited 1 ∧
      generateMatrixifyCSV none (some []) = none :=
  ⟨startup_behavior.1 (fun _ => false) (Or.inl rfl), startup_behavior.2.2.1 (some [])⟩

/-- The style-label field of a built manifest row. -/
theorem mkMRow_styleLabel (style : String) (info : StyleInfo) (pos : Nat) (t : String) :
    (mkMRow style info pos t).styleLabel = if pos + 1 = 2 then style else "" := rfl

/-- Rows emitted from a position at least 2 all carry an empty style label. -/
theorem emitRows_styleLabel_of_ge (style : String) (info : StyleInfo) :
    ∀ (imgs : List String) (pos : Nat), 2 ≤ pos →
      ∀ m ∈ emitRows style info pos imgs, m.styleLabel = "" := by
  intro imgs
  induction imgs with
  | nil => intro pos _ m hm; simp [emitRows] at hm
  | cons img rest ih =>
    intro pos hpos m hm
    by_cases hb : jsTrim img = ""
    · rw [emitRows, if_pos hb] at hm
      exact ih pos hpos m hm
    · rw [emitRows, if_neg hb] at hm
      rcases List.mem_cons.mp hm with hm | hm
      · subst hm
        rw [mkMRow_styleLabel, if_neg (by omega)]
      · exact ih (pos + 1) (by omega) m hm

/-- Labels of rows emitted from position 1: the head row carries the
style, every later row the empty string. -/
theorem emitRows_one_styleLabel (style : String) (info : StyleInfo) :
    ∀ (imgs : List String) (i : Nat) (h : i < (emitRows style info 1 imgs).length),
      ((emitRows style info 1 imgs).get ⟨i, h⟩).styleLabel =
        if i = 0 then style else "" := by
  intro imgs
  induction imgs with
  | nil => intro i h; simp [emitRows] at h
  | cons img rest ih =>
    intro i h
    by_cases hb : jsTrim img = ""
    · have hl : emitRows style info 1 (img :: rest) = emitRows style info 1 rest := by
        rw [emitRows, if_pos hb]
      revert h
      rw [hl]
      intro h
      exact ih i h
    · have hl : emitRows style info 1 (img :: rest) =
          mkMRow style info 1 (jsTrim img) :: emitRows style info 2 rest := by
        rw [emitRows, if_neg hb]
      revert h
      rw [hl]
      intro h
      match i with
      | 0 => simp [mkMRow_styleLabel]
      | i + 1 =>
        rw [List.get_cons_succ]
        rw [if_neg (by omega)]
        exact emitRows_styleLabel_of_ge style info rest 2 (by omega) _
          (List.get_mem _ _ _)

/-- C2 (amended). For every product whose style is in the style map, the
Style column is populated with the style identifier only on that product's
first emitted row and is the empty string on every later row: the
generator's `position++` has already run when `position === 2` is tested,
so the test selects the first pushed row. -/
theorem matrixify_style_label_first_row_only :
    ∀ (sm : String → Option StyleInfo) (row : InvRow) (info : StyleInfo),
      sm row.style = some info →
      ∀ (i : Nat) (h : i < (processInvRow sm row).length),
        ((processInvRow sm row).get ⟨i, h⟩).styleLabel =
          if i = 0 then row.style else "" := by
  intro sm row info hsm i h
  have heq : processInvRow sm row =
      emitRows row.style info 1
        (if row.grayRaw ≠ "" then (splitOnChar ',' row.grayRaw.data).map ofChars
         else (splitOnChar ',' row.nonGrayRaw.data).map ofChars) := by
    simp only [processInvRow]
    rw [hsm]
  rw [List.get_of_eq heq]
  exact emitRows_one_styleLabel row.style info _ i _

/-- C2 witness: on the concrete two-image product, the second emitted row
has an empty style label. -/
theorem matrixify_style_label_first_row_only_witness :
    ((processInvRow styleMapEx invRowEx).get ⟨1, by decide⟩).styleLabel = "" := by
  have := matrixify_style_label_first_row_only styleMapEx invRowEx
    ⟨"1001", "Boot"⟩ (by decide) 1 (by decide)
  simpa using this

/-- Sources of emitted rows: exactly the trimmed non-blank items, in order. -/
theorem emitRows_src (style : String) (info : StyleInfo) :
    ∀ (imgs : List String) (pos : Nat),
      (emitRows style info pos imgs).map MRow.src =
        (imgs.map jsTrim).filter (fun s => s ≠ "") := by
  intro imgs
  induction imgs with
  | nil => intro pos; rfl
  | cons img rest ih =>
    intro pos
    by_cases hb : jsTrim img = ""
    · rw [emitRows, if_pos hb]
      simp [hb, ih pos]
    · rw [emitRows, if_neg hb]
      simp [hb, ih (pos + 1), mkMRow]

/-- Positions of emitted rows: consecutive counter values from `pos`. -/
theorem emitRows_pos (style : String) (info : StyleInfo) :
    ∀ (imgs : List String) (pos : Nat),
      (emitRows style info pos imgs).map MRow.position =
        List.range' pos (emitRows style info pos imgs).length := by
  intro imgs
  induction imgs with
  | nil => intro pos; rfl
  | cons img rest ih =>
    intro pos
    by_cases hb : jsTrim img = ""
    · rw [emitRows, if_pos hb]
      exact ih pos
    · rw [emitRows, if_neg hb]
      simp only [List.map_cons, List.length_cons, List.range'_succ]
      rw [ih (pos + 1)]
      rfl

/-- C8. For every inventory row whose style is in the style map, the
manifest rows' sources are exactly the trimmed non-blank filenames of the
gray cell when it is non-empty and of the non-gray cell otherwise (the
two cells are never mixed), and the emitted positions are the consecutive
1-based counter values. -/
theorem manifest_list_choice :
    ∀ (sm : String → Option StyleInfo) (row : InvRow) (info : StyleInfo),
      sm row.style = some info →
      ((processInvRow sm row).map MRow.src =
        (((if row.grayRaw ≠ "" then (splitOnChar ',' row.grayRaw.data).map ofChars
           else (splitOnChar ',' row.nonGrayRaw.data).map ofChars).map jsTrim).filter
          (fun s => s ≠ ""))) ∧
      ((processInvRow sm row).map MRow.position =
        List.range' 1 (processInvRow sm row).length) := by
  intro sm row info hsm
  constructor
  · simp only [processInvRow, hsm]
    exact emitRows_src row.style info _ 1
  · simp only [processInvRow, hsm]
    exact emitRows_pos row.style info _ 1

/-- C8 witness: on the concrete row the positions are 1 and 2. -/
theorem manifest_list_choice_witness :
    (processInvRow styleMapEx invRowEx).map MRow.position =
      List.range' 1 (processInvRow styleMapEx invRowEx).length :=
  (manifest_list_choice styleMapEx invRowEx ⟨"1001", "Boot"⟩ (by decide)).2

/-- Output filenames are injective in the view key for a fixed product. -/
theorem mkFilename_inj {pid a b : String} (h : mkFilename pid a = mkFilename pid b) :
    a = b := by
  have h' : (pid.data ++ "_".data) ++ (a.data ++ ".jpg".data) =
      (pid.data ++ "_".data) ++ (b.data ++ ".jpg".data) := by
    have hd := congrArg String.data h
    simpa [mkFilename, String.data_append, List.append_assoc] using hd
  have h2 := (List.append_right_inj _).mp h'
  have h3 := (List.append_left_inj _).mp h2
  exact String.ext h3

/-- The older materializer's predicate is constantly true: the built
filename always contains its own view key as a substring. -/
theorem jsIncludes_mkFilename (pid v : String) : jsIncludes (mkFilename pid v) v = true := by
  simp only [jsIncludes, mkFilename, decide_eq_true_eq]
  exact ⟨(pid ++ "_").data, ".jpg".data, by simp [String.data_append, List.append_assoc]⟩

/-- C4 (amended). In the current revision the materializer resolves each
view by exact key lookup: with distinct view keys, the unique copy whose
destination is `{productId}_{viewKey}.jpg` has exactly the source recorded
under that key. In the older revision the `images.find` predicate ignores
the candidate path, so every view of a product is copied from the
product's first image — a heuristic that can pick a different image. -/
theorem copy_exact_lookup :
    (∀ (pid : String) (views : List (String × String)) (v p : String),
        (views.map Prod.fst).Nodup → (v, p) ∈ views →
        (copyImagesToOutput pid views).filter (fun e => e.1 = mkFilename pid v) =
          [(mkFilename pid v, p)]) ∧
    (∀ (pid : String) (views : List String) (img : String) (rest : List String),
        copyImagesToOutputP0 pid views (img :: rest) =
          views.map (fun v => (mkFilename pid v, img))) := by
  constructor
  · intro pid views v p
    induction views with
    | nil => intro _ hmem; cases hmem
    | cons e rest ih =>
      intro hnd hmem
      have hnd' : e.1 ∉ rest.map Prod.fst ∧ (rest.map Prod.fst).Nodup :=
        List.nodup_cons.mp hnd
      have hrest : ∀ q : String, e.1 = v →
          (copyImagesToOutput pid rest).filter
            (fun x => x.1 = mkFilename pid v) = [] := by
        intro q hev
        refine List.filter_eq_nil_iff.mpr ?_
        intro x hx
        rcases List.mem_map.mp hx with ⟨w, hw, rfl⟩
        simp only [decide_eq_true_eq]
        intro hbad
        exact hnd'.1 (hev ▸ List.mem_map.mpr ⟨w, hw, mkFilename_inj hbad⟩)
      by_cases he : e.1 = v
      · have hep : e = (v, p) := by
          rcases List.mem_cons.mp hmem with h1 | h1
          · exact h1.symm
          · exact absurd (List.mem_map.mpr ⟨(v, p), h1, rfl⟩) (he ▸ hnd'.1)
        have hnil := hrest p he
        have hcons : copyImagesToOutput pid (e :: rest) =
            (mkFilename pid e.1, e.2) :: copyImagesToOutput pid rest := rfl
        rw [hcons, List.filter_cons, hep]
        simp [hnil]
      · have hmem' : (v, p) ∈ rest := by
          rcases List.mem_cons.mp hmem with h1 | h1
          · exact absurd (congrArg Prod.fst h1.symm) he
          · exact h1
        have hcons : copyImagesToOutput pid (e :: rest) =
            (mkFilename pid e.1, e.2) :: copyImagesToOutput pid rest := rfl
        have hpred : (decide ((mkFilename pid e.1, e.2).1 = mkFilename pid v)) = false := by
          simp only [decide_eq_false_iff_not]
          exact fun hbad => he (mkFilename_inj hbad)
        rw [hcons, List.filter_cons, hpred]
        simp only [Bool.false_eq_true, if_false]
        exact ih hnd'.2 hmem'
  · intro pid views img rest
    induction views with
    | nil => rfl
    | cons v vs ih =>
      have hfind : List.find? (fun _ => jsIncludes (mkFilename pid v) v) (img :: rest) =
          some img := by
        simp [List.find?_cons_of_pos, jsIncludes_mkFilename]
      have hstep : copyImagesToOutputP0 pid (v :: vs) (img :: rest) =
          (mkFilename pid v, img) :: copyImagesToOutputP0 pid vs (img :: rest) := by
        simp only [copyImagesToOutputP0, List.filterMap_cons, hfind]
      rw [hstep, ih, List.map_cons]

/-- C4 witness: concrete exact lookup for the key `b` among two entries,
and the older revision copying both views from the first image. -/
theorem copy_exact_lookup_witness :
    (copyImagesToOutput "P" [("a", "s1"), ("b", "s2")]).filter
        (fun e => e.1 = mkFilename "P" "b") = [(mkFilename "P" "b", "s2")] ∧
      copyImagesToOutputP0 "P" ["a", "b"] ("i1" :: ["i2"]) =
        (["a", "b"] : List String).map (fun v => (mkFilename "P" v, "i1")) := by
  constructor
  · exact copy_exact_lookup.1 "P" [("a", "s1"), ("b", "s2")] "b" "s2"
      (by decide) (by decide)
  · exact copy_exact_lookup.2 "P" ["a", "b"] "i1" ["i2"]

/-- Lookup in the replace branch of `mapSet`: hit when some entry has the
key, miss otherwise. -/
theorem alookup_map_replace (m : List (String × String)) (k v : String) :
    alookup (m.map (fun e => if e.1 = k then (k, v) else e)) k =
      if m.any (fun e => e.1 = k) then some v else none := by
  induction m with
  | nil => rfl
  | cons e t ih =>
    by_cases he : e.1 = k
    · simp [alookup, he]
    · have hb : (decide (e.1 = k)) = false := by simpa using he
      have hor : (decide (e.1 = k) || t.any fun e => decide (e.1 = k)) =
          t.any fun e => decide (e.1 = k) := by rw [hb, Bool.false_or]
      simp only [List.map_cons, alookup, if_neg he, List.any_cons, hor]
      exact ih

/-- The replace branch of `mapSet` leaves other keys' lookups unchanged. -/
theorem alookup_map_replace_other (m : List (String × String)) (k v k' : String)
    (h : k' ≠ k) :
    alookup (m.map (fun e => if e.1 = k then (k, v) else e)) k' = alookup m k' := by
  induction m with
  | nil => rfl
  | cons e t ih =>
    by_cases he : e.1 = k
    · have hne : ¬(e.1 = k') := by rw [he]; exact fun hh => h hh.symm
      have hkk : ¬(k = k') := fun hh => h hh.symm
      simp [alookup, he, hne, hkk, ih]
    · simp [alookup, he, ih]

/-- Lookup after appending a single binding. -/
theorem alookup_append_single (m : List (String × String)) (k v k' : String) :
    alookup (m ++ [(k, v)]) k' =
      match alookup m k' with
      | some w => some w
      | none => if k = k' then some v else none := by
  induction m with
  | nil => simp [alookup]
  | cons e t ih =>
    by_cases he : e.1 = k' <;> simp [alookup, he, ih]

/-- A key no entry carries looks up to `none`. -/
theorem alookup_eq_none (m : List (String × String)) (k : String)
    (h : m.any (fun e => e.1 = k) = false) : alookup m k = none := by
  induction m with
  | nil => rfl
  | cons e t ih =>
    simp only [List.any_cons, Bool.or_eq_false_iff] at h
    have he : ¬(e.1 = k) := by simpa using h.1
    simp [alookup, he, ih h.2]

/-- `mapSet` makes its key look up to the new value. -/
theorem mapSet_lookup_self (m : List (String × String)) (k v : String) :
    alookup (mapSet m k v) k = some v := by
  by_cases h : m.any (fun e => e.1 = k)
  · simp [mapSet, h, alookup_map_replace]
  · rw [mapSet, if_neg h, alookup_append_single,
      alookup_eq_none m k (Bool.eq_false_iff.mpr h)]
    simp

/-- `mapSet` leaves other keys' lookups unchanged. -/
theorem mapSet_lookup_other (m : List (String × String)) (k v k' : String)
    (h : k' ≠ k) : alookup (mapSet m k v) k' = alookup m k' := by
  by_cases hm : m.any (fun e => e.1 = k)
  · simp [mapSet, hm, alookup_map_replace_other _ _ _ _ h]
  · rw [mapSet, if_neg hm, alookup_append_single]
    cases halk : alookup m k' with
    | some w => simp
    | none => simpa using fun hh : k = k' => h hh.symm

/-- Keys after `mapSet`: unchanged on replace, the new key appended on
insert. -/
theorem mapSet_keys (m : List (String × String)) (k v : String) :
    (mapSet m k v).map Prod.fst =
      if m.any (fun e => e.1 = k) then m.map Prod.fst
      else m.map Prod.fst ++ [k] := by
  by_cases hm : m.any (fun e => e.1 = k)
  · rw [mapSet, if_pos hm, if_pos hm, List.map_map]
    refine List.map_congr_left ?_
    intro e _
    by_cases h1 : e.1 = k <;> simp [Function.comp, h1]
  · rw [mapSet, if_neg hm, if_neg hm]
    simp

/-- `mapSet` preserves distinctness of keys. -/
theorem mapSet_keys_nodup (m : List (String × String)) (k v : String)
    (h : (m.map Prod.fst).Nodup) : ((mapSet m k v).map Prod.fst).Nodup := by
  rw [mapSet_keys]
  by_cases hm : m.any (fun e => e.1 = k)
  · simpa [hm] using h
  · rw [if_neg hm]
    have hk : k ∉ m.map Prod.fst := by
      intro hk
      rcases List.mem_map.mp hk with ⟨e, he, hfe⟩
      exact absurd (List.any_eq_true.mpr ⟨e, he, by simp [hfe]⟩) hm
    rw [List.nodup_append]
    exact ⟨h, List.nodup_singleton k, by simpa [List.disjoint_singleton] using hk⟩

/-- Key membership after `mapSet`. -/
theorem mapSet_keys_mem (m : List (String × String)) (k v k' : String) :
    k' ∈ (mapSet m k v).map Prod.fst ↔ (k' ∈ m.map Prod.fst ∨ k' = k) := by
  rw [mapSet_keys]
  by_cases hm : m.any (fun e => e.1 = k)
  · rw [if_pos hm]
    constructor
    · exact Or.inl
    · rintro (h | rfl)
      · exact h
      · rcases List.any_eq_true.mp hm with ⟨e, he, hek⟩
        exact List.mem_map.mpr ⟨e, he, by simpa using hek⟩
  · rw [if_neg hm]
    simp

/-- Lookup through the whole `views` fold: the last image classified to a
key wins; keys no image produced fall through to the initial map. -/
theorem buildViews_fold_lookup (classify : String → String) :
    ∀ (imgs : List String) (m : List (String × String)) (k : String),
      alookup (imgs.foldl (fun m p => mapSet m (classify p) p) m) k =
        if imgs.any (fun p => classify p = k) then
          (imgs.filter (fun p => classify p = k)).getLast?
        else alookup m k := by
  intro imgs
  induction imgs using List.reverseRecOn with
  | nil => intro m k; simp
  | append_singleton l p ih =>
    intro m k
    rw [List.foldl_append]
    simp only [List.foldl_cons, List.foldl_nil]
    by_cases hk : classify p = k
    · rw [hk, mapSet_lookup_self, List.any_append, List.filter_append]
      simp [hk, List.getLast?_concat]
    · rw [mapSet_lookup_other _ _ _ _ (fun h => hk h.symm), ih,
        List.any_append, List.filter_append]
      simp [hk]

/-- The `views` fold preserves distinctness of keys. -/
theorem buildViews_fold_keys_nodup (classify : String → String) :
    ∀ (imgs : List String) (m : List (String × String)),
      (m.map Prod.fst).Nodup →
      ((imgs.foldl (fun m p => mapSet m (classify p) p) m).map Prod.fst).Nodup := by
  intro imgs
  induction imgs with
  | nil => intro m h; simpa using h
  | cons p rest ih =>
    intro m h
    simp only [List.foldl_cons]
    exact ih _ (mapSet_keys_nodup _ _ _ h)

/-- Key membership through the whole `views` fold. -/
theorem buildViews_fold_keys_mem (classify : String → String) :
    ∀ (imgs : List String) (m : List (String × String)) (k : String),
      (k ∈ (imgs.foldl (fun m p => mapSet m (classify p) p) m).map Prod.fst) ↔
        (k ∈ m.map Prod.fst ∨ imgs.any (fun p => classify p = k) = true) := by
  intro imgs
  induction imgs with
  | nil => intro m k; simp
  | cons p rest ih =>
    intro m k
    simp only [List.foldl_cons]
    rw [ih, mapSet_keys_mem]
    simp only [List.any_cons, Bool.or_eq_true, decide_eq_true_eq]
    constructor
    · rintro ((h | rfl) | h)
      · exact Or.inl h
      · exact Or.inr (Or.inl rfl)
      · exact Or.inr (Or.inr h)
    · rintro (h | rfl | h)
      · exact Or.inl (Or.inl h)
      · exact Or.inl (Or.inr rfl)
      · exact Or.inr h

/-- In an association list with distinct keys, the number of entries with
key `k` is one when `k` is present and zero otherwise. -/
theorem countP_keys_nodup (l : List (String × String)) (k : String)
    (h : (l.map Prod.fst).Nodup) :
    l.countP (fun e => e.1 = k) = if k ∈ l.map Prod.fst then 1 else 0 := by
  induction l with
  | nil => rfl
  | cons e t ih =>
    have h' : e.1 ∉ t.map Prod.fst ∧ (t.map Prod.fst).Nodup :=
      List.nodup_cons.mp h
    rw [List.countP_cons]
    by_cases he : e.1 = k
    · have ht : t.countP (fun e => e.1 = k) = 0 := by
        rw [List.countP_eq_zero]
        intro a ha
        simp only [decide_eq_true_eq]
        intro hak
        exact h'.1 (by rw [he, ← hak]; exact List.mem_map.mpr ⟨a, ha, rfl⟩)
      have hmem : k ∈ (e :: t).map Prod.fst := by
        simp [he.symm]
      simp [ht, he, hmem]
    · rw [ih h'.2]
      have hne : ¬(k = e.1) := fun hh => he hh.symm
      by_cases hm : k ∈ t.map Prod.fst <;> simp [hm, he, hne]

/-- The push-order partition equals a pair of filters. -/
theorem splitGrayEntries_eq (l : List VEntry) :
    splitGrayEntries l =
      (l.filter (fun e => jsStartsWith e.view "gray_"),
       l.filter (fun e => !jsStartsWith e.view "gray_")) := by
  induction l with
  | nil => rfl
  | cons e t ih =>
    by_cases hg : jsStartsWith e.view "gray_" = true <;>
      simp [splitGrayEntries, hg, ih]

/-- A filter and its complement together count every matching element. -/
theorem countP_filter_split (l : List VEntry) (p q : VEntry → Bool) :
    (l.filter q).countP p + (l.filter (fun e => !q e)).countP p = l.countP p := by
  induction l with
  | nil => rfl
  | cons e t ih =>
    by_cases hq : q e = true <;> by_cases hp : p e = true <;>
      simp [List.filter_cons, List.countP_cons, hq, hp] <;> omega

/-- C6. Last-write-wins: when several images of a product classify to the
same view key, the key's entry holds exactly the last matching path; the
map has at most one entry per key, and both the copied output and the
inventory cells contain exactly one filename for the key when any image
produced it. -/
theorem views_last_write_wins :
    ∀ (classify : String → String) (imgs : List String) (pid k : String),
      (alookup (buildViews classify imgs) k =
        if imgs.any (fun p => classify p = k) then
          (imgs.filter (fun p => classify p = k)).getLast?
        else none) ∧
      ((buildViews classify imgs).countP (fun e => e.1 = k) =
        if imgs.any (fun p => classify p = k) then 1 else 0) ∧
      ((copyImagesToOutput pid (buildViews classify imgs)).countP
          (fun e => e.1 = mkFilename pid k) =
        if imgs.any (fun p => classify p = k) then 1 else 0) ∧
      (((inventoryFilenames pid (buildViews classify imgs)).1 ++
          (inventoryFilenames pid (buildViews classify imgs)).2).countP
          (fun f => f = mkFilename pid k) =
        if imgs.any (fun p => classify p = k) then 1 else 0) := by
  intro classify imgs pid k
  have hnodup : ((buildViews classify imgs).map Prod.fst).Nodup :=
    buildViews_fold_keys_nodup classify imgs [] (by simp)
  have hkey : (buildViews classify imgs).countP (fun e => e.1 = k) =
      if imgs.any (fun p => classify p = k) then 1 else 0 := by
    rw [countP_keys_nodup _ k hnodup]
    have hmem : (k ∈ (buildViews classify imgs).map Prod.fst) ↔
        imgs.any (fun p => classify p = k) = true := by
      rw [buildViews, buildViews_fold_keys_mem]
      simp
    by_cases ha : imgs.any (fun p => classify p = k) = true
    · rw [if_pos (hmem.mpr ha), if_pos ha]
    · rw [if_neg (fun hh => ha (hmem.mp hh)), if_neg ha]
  have hviews : (buildViews classify imgs).countP
      (fun e => mkFilename pid e.1 = mkFilename pid k) =
      if imgs.any (fun p => classify p = k) then 1 else 0 := by
    rw [← hkey]
    refine List.countP_congr ?_
    intro e _
    simp only [decide_eq_true_eq]
    exact ⟨fun hh => mkFilename_inj hh, fun hh => by rw [hh]⟩
  refine ⟨?_, hkey, ?_, ?_⟩
  · have := buildViews_fold_lookup classify imgs [] k
    rw [buildViews]
    rw [this]
    by_cases ha : imgs.any (fun p => classify p = k) = true <;> simp [ha, alookup]
  · rw [copyImagesToOutput, List.countP_map]
    exact hviews
  · simp only [inventoryFilenames, List.countP_append, List.countP_map]
    rw [sortViews, sortViews,
      (List.perm_insertionSort (viewLE defaultPreferredOrder) _).countP_eq,
      (List.perm_insertionSort (viewLE grayPreferredOrder) _).countP_eq,
      splitGrayEntries_eq]
    rw [Nat.add_comm, countP_filter_split]
    rw [mkEntries, List.countP_map]
    exact hviews

/-- The dash replacement distributes over string append. -/
theorem dashRepl_append (a b : String) : dashRepl (a ++ b) = dashRepl a ++ dashRepl b := by
  apply String.ext
  simp [dashRepl, ofChars, String.data_append]

/-- Decimal digit characters are never a dash. -/
theorem digitChar_ne_dash : ∀ d : Nat, d < 10 → Nat.digitChar d ≠ '-' := by decide

/-- No dash appears in the characters produced by `Nat.toDigitsCore`. -/
theorem toDigitsCore_ne_dash :
    ∀ (fuel n : Nat) (ds : List Char), (∀ c ∈ ds, c ≠ '-') →
      ∀ c ∈ Nat.toDigitsCore 10 fuel n ds, c ≠ '-' := by
  intro fuel
  induction fuel with
  | zero => intro n ds h c hc; exact h c hc
  | succ f ih =>
    intro n ds h c hc
    rw [Nat.toDigitsCore] at hc
    have hd : ∀ x ∈ Nat.digitChar (n % 10) :: ds, x ≠ '-' := by
      intro x hx
      rcases List.mem_cons.mp hx with rfl | hx
      · exact digitChar_ne_dash (n % 10) (Nat.mod_lt n (by norm_num))
      · exact h x hx
    by_cases h0 : n / 10 = 0
    · rw [if_pos h0] at hc
      exact hd c hc
    · rw [if_neg h0] at hc
      exact ih (n / 10) _ hd c hc

/-- No dash appears in the decimal representation of a natural number. -/
theorem repr_ne_dash (n : Nat) : ∀ c ∈ (Nat.repr n).data, c ≠ '-' := by
  intro c hc
  exact toDigitsCore_ne_dash (n + 1) n [] (by simp) c hc

/-- Strings without a dash are fixed by the dash replacement. -/
theorem dashRepl_eq_self {s : String} (h : ∀ c ∈ s.data, c ≠ '-') : dashRepl s = s := by
  apply String.ext
  simp only [dashRepl, ofChars]
  calc s.data.map (fun c => if c = '-' then '_' else c) = s.data.map id :=
        List.map_congr_left (fun c hcmem => by rw [if_neg (h c hcmem)]; rfl)
    _ = s.data := List.map_id s.data

/-- The probed dimension string contains no dash. -/
theorem dashRepl_dimString (w h : Nat) : dashRepl (dimString w h) = dimString w h := by
  apply dashRepl_eq_self
  intro c hc
  have hw : (toString w) = Nat.repr w := rfl
  have hh : (toString h) = Nat.repr h := rfl
  rw [dimString, hw, hh] at hc
  simp only [String.data_append] at hc
  rcases List.mem_append.mp hc with hc | hc
  · rcases List.mem_append.mp hc with hc | hc
    · exact repr_ne_dash w c hc
    · have hcx : c = 'x' := by simpa using hc
      subst hcx
      decide
  · exact repr_ne_dash h c hc

/-- The probed dimension string is never empty. -/
theorem dimString_ne_empty (w h : Nat) : ¬(dimString w h = "") := by
  intro hh
  have hd := congrArg String.data hh
  simp [dimString, String.data_append] at hd

/-- The classifier factors through the color bucket, the semantic view and
the probe outcome. -/
theorem extractImageView_eq (pid p : String) (probe : Option (Nat × Nat)) :
    extractImageView pid p probe =
      match probe with
      | some (w, h) =>
          dashRepl (colorBucket p ++ "-" ++ semanticView pid p ++ "-" ++ dimString w h)
      | none => dashRepl (colorBucket p ++ "-" ++ semanticView pid p) := by
  cases probe with
  | none => rfl
  | some wh =>
    cases wh with
    | mk w h =>
      simp only [extractImageView, colorBucket, semanticView]
      rw [if_neg (dimString_ne_empty w h)]

/-- C5. The View Classifier is total and deterministic: it is a function
of the parent-folder bucket, the filename-derived semantic view and the
probe outcome alone, and a failed probe only omits the trailing
`_{width}x{height}` suffix of the otherwise identical key. -/
theorem classifier_deterministic_total :
    (∀ (pid1 p1 pid2 p2 : String) (probe : Option (Nat × Nat)),
        colorBucket p1 = colorBucket p2 →
        semanticView pid1 p1 = semanticView pid2 p2 →
        extractImageView pid1 p1 probe = extractImageView pid2 p2 probe) ∧
    (∀ (pid p : String) (w h : Nat),
        extractImageView pid p (some (w, h)) =
          extractImageView pid p none ++ "_" ++ dimString w h) := by
  constructor
  · intro pid1 p1 pid2 p2 probe h1 h2
    rw [extractImageView_eq, extractImageView_eq, h1, h2]
  · intro pid p w h
    simp only [extractImageView_eq, dashRepl_append, dashRepl_dimString]
    rfl

/-- C5 witness: two different paths and product ids with the same bucket,
semantic view and probed dimensions classify identically. -/
theorem classifier_deterministic_total_witness :
    extractImageView "X" "gray/X_8_large.jpg" (some (10, 20)) =
      extractImageView "Y" "gray/Y_8_regular.jpg" (some (10, 20)) :=
  classifier_deterministic_total.1 "X" "gray/X_8_large.jpg" "Y" "gray/Y_8_regular.jpg"
    (some (10, 20)) (by decide) (by decide)

/-- The dash string maps to the underscore string. -/
theorem dashRepl_dash : dashRepl "-" = "_" := rfl

/-- The bucket names contain no dash, so the final replacement fixes them. -/
theorem dashRepl_colorBucket (p : String) : dashRepl (colorBucket p) = colorBucket p := by
  simp only [colorBucket]
  split_ifs with h1 h2
  · decide
  · rcases h2 with h2 | h2 <;> rw [h2] <;> decide
  · decide

/-- The classifier's bucket is always one of the three literals. -/
theorem colorBucket_cases (p : String) :
    colorBucket p = "default" ∨ colorBucket p = "gray" ∨ colorBucket p = "white" := by
  simp only [colorBucket]
  split_ifs with h1 h2
  · exact Or.inl rfl
  · rcases h2 with h2 | h2
    · exact Or.inr (Or.inl h2)
    · exact Or.inr (Or.inr h2)
  · exact Or.inl rfl

/-- Every view key is its bucket, an underscore, and a remainder. -/
theorem bucket_key_form (pid p : String) (probe : Option (Nat × Nat)) :
    ∃ rest : String,
      extractImageView pid p probe = colorBucket p ++ "_" ++ rest := by
  cases probe with
  | none =>
    refine ⟨dashRepl (semanticView pid p), ?_⟩
    simp [extractImageView_eq, dashRepl_append, dashRepl_colorBucket, dashRepl_dash,
      String.append_assoc]
  | some wh =>
    cases wh with
    | mk w h =>
      refine ⟨dashRepl (semanticView pid p) ++ "_" ++ dimString w h, ?_⟩
      simp [extractImageView_eq, dashRepl_append, dashRepl_colorBucket, dashRepl_dash,
        dashRepl_dimString, String.append_assoc]

/-- A string starts with any of its own leading append parts. -/
theorem jsStartsWith_append (s t : String) : jsStartsWith (s ++ t) s = true := by
  simp [jsStartsWith, String.data_append]

/-- A nonempty list shares its head with every list it is a prefix of. -/
theorem prefix_head_eq {l₁ l₂ : List Char} (h : l₁ <+: l₂) (hne : l₁ ≠ []) :
    l₂.head? = l₁.head? := by
  rcases h with ⟨t, rfl⟩
  cases l₁ with
  | nil => exact absurd rfl hne
  | cons c tl => rfl

/-- A true `startsWith` fixes the subject's first character. -/
theorem jsStartsWith_head {s p : String} (h : jsStartsWith s p = true)
    (hne : p.data ≠ []) : s.data.head? = p.data.head? := by
  have hp : p.data <+: s.data := by simpa [jsStartsWith] using h
  exact prefix_head_eq hp hne

/-- Two prefixes with different first characters cannot both hold. -/
theorem not_startsWith_pair {s a b : String} (ha : jsStartsWith s a = true)
    (hb : jsStartsWith s b = true) (hane : a.data ≠ []) (hbne : b.data ≠ [])
    (hne : a.data.head? ≠ b.data.head?) : False :=
  hne ((jsStartsWith_head ha hane).symm.trans (jsStartsWith_head hb hbne))

/-- At most one of the three bucket prefixes holds of any string. -/
theorem buckets_mutually_exclusive (s : String) :
    (jsStartsWith s "default_").toNat + (jsStartsWith s "gray_").toNat +
      (jsStartsWith s "white_").toNat ≤ 1 := by
  by_cases h1 : jsStartsWith s "default_" = true <;>
    by_cases h2 : jsStartsWith s "gray_" = true <;>
      by_cases h3 : jsStartsWith s "white_" = true <;>
        simp [h1, h2, h3] <;>
          first
            | exact not_startsWith_pair h1 h2 (by decide) (by decide) (by decide)
            | exact not_startsWith_pair h1 h3 (by decide) (by decide) (by decide)
            | exact not_startsWith_pair h2 h3 (by decide) (by decide) (by decide)

/-- Every view key starts with exactly one bucket prefix. -/
theorem viewKey_bucket_sum (pid p : String) (probe : Option (Nat × Nat)) :
    (jsStartsWith (extractImageView pid p probe) "default_").toNat +
      (jsStartsWith (extractImageView pid p probe) "gray_").toNat +
      (jsStartsWith (extractImageView pid p probe) "white_").toNat = 1 := by
  obtain ⟨rest, hk⟩ := bucket_key_form pid p probe
  have hone : jsStartsWith (extractImageView pid p probe) (colorBucket p ++ "_") = true := by
    rw [hk]
    exact jsStartsWith_append _ _
  have hx := buckets_mutually_exclusive (extractImageView pid p probe)
  rcases colorBucket_cases p with hb | hb | hb <;> rw [hb] at hone
  · have hd : jsStartsWith (extractImageView pid p probe) "default_" = true := hone
    rw [hd] at hx ⊢
    simp only [Bool.toNat_true] at hx ⊢
    omega
  · have hd : jsStartsWith (extractImageView pid p probe) "gray_" = true := hone
    rw [hd] at hx ⊢
    simp only [Bool.toNat_true] at hx ⊢
    omega
  · have hd : jsStartsWith (extractImageView pid p probe) "white_" = true := hone
    rw [hd] at hx ⊢
    simp only [Bool.toNat_true] at hx ⊢
    omega

/-- Ignored parent folders force the `default` bucket. -/
theorem colorBucket_ignored (p : String) (h : folderNameOf p ∈ ignoredFolders) :
    colorBucket p = "default" := by
  simp only [colorBucket]
  have h' : folderNameOf p = "spins" ∨ folderNameOf p = "spin" ∨
      folderNameOf p = "swatch" := by simpa [ignoredFolders] using h
  have hc : ignoredFolders.contains (folderNameOf p) = true := by
    rcases h' with h' | h' | h' <;> simp [h', ignoredFolders]
  rw [if_pos hc]

/-- C9. Every view key begins with exactly one of the prefixes `default_`,
`gray_`, `white_`; ignored folder names give a `default_` key; and the
aggregator's non-gray partition holds exactly the keys with a `default_`
or `white_` prefix. -/
theorem viewkey_bucket_invariant :
    (∀ (pid p : String) (probe : Option (Nat × Nat)),
        (jsStartsWith (extractImageView pid p probe) "default_").toNat +
          (jsStartsWith (extractImageView pid p probe) "gray_").toNat +
          (jsStartsWith (extractImageView pid p probe) "white_").toNat = 1) ∧
    (∀ (pid p : String) (probe : Option (Nat × Nat)),
        folderNameOf p ∈ ignoredFolders →
        jsStartsWith (extractImageView pid p probe) "default_" = true) ∧
    (∀ views : List VEntry,
        (∀ e ∈ views, ∃ (pid p : String) (probe : Option (Nat × Nat)),
          e.view = extractImageView pid p probe) →
        (splitGrayEntries views).2 =
          views.filter (fun e =>
            jsStartsWith e.view "default_" || jsStartsWith e.view "white_")) := by
  refine ⟨viewKey_bucket_sum, ?_, ?_⟩
  · intro pid p probe h
    obtain ⟨rest, hk⟩ := bucket_key_form pid p probe
    rw [colorBucket_ignored p h] at hk
    rw [hk]
    have hlit : ("default" : String) ++ "_" = "default_" := rfl
    rw [← hlit]
    exact jsStartsWith_append _ _
  · intro views
    induction views with
    | nil => intro _; rfl
    | cons e t ih =>
      intro hviews
      obtain ⟨pid, p, probe, hk⟩ := hviews e (List.mem_cons_self e t)
      have hsum := viewKey_bucket_sum pid p probe
      rw [← hk] at hsum
      have ht := ih (fun x hx => hviews x (List.mem_cons_of_mem e hx))
      by_cases hg : jsStartsWith e.view "gray_" = true
      · by_cases hd : jsStartsWith e.view "default_" = true
        · rw [hd, hg] at hsum
          simp at hsum
          omega
        · by_cases hw : jsStartsWith e.view "white_" = true
          · rw [hg, hw] at hsum
            simp at hsum
          · have hdf : jsStartsWith e.view "default_" = false := Bool.eq_false_iff.mpr hd
            have hwf : jsStartsWith e.view "white_" = false := Bool.eq_false_iff.mpr hw
            simp [splitGrayEntries, hg, List.filter_cons, hdf, hwf, ht]
      · have hgf : jsStartsWith e.view "gray_" = false := Bool.eq_false_iff.mpr hg
        have hside : (jsStartsWith e.view "default_" || jsStartsWith e.view "white_") = true := by
          by_cases hd : jsStartsWith e.view "default_" = true
          · simp [hd]
          · by_cases hw : jsStartsWith e.view "white_" = true
            · simp [hw]
            · rw [Bool.eq_false_iff.mpr hd, Bool.eq_false_iff.mpr hw, hgf] at hsum
              simp at hsum
        simp [splitGrayEntries, hgf, List.filter_cons, hside, ht]

/-- C9 witness: the ignored folder `spins` yields a `default_` key. -/
theorem viewkey_bucket_invariant_witness :
    jsStartsWith (extractImageView "A" "spins/A_thumbnail.jpg" none) "default_" = true :=
  viewkey_bucket_invariant.2.1 "A" "spins/A_thumbnail.jpg" none (by decide)

/-- The sign model of the lexicographic comparison is nonpositive exactly
for ordered pairs. -/
theorem localeCmpInt_le_zero {a b : String} : localeCmpInt a b ≤ 0 ↔ a ≤ b := by
  unfold localeCmpInt
  split_ifs with h1 h2
  · simp [le_of_lt h1]
  · constructor
    · intro hle
      exact absurd hle (by norm_num)
    · intro hab
      exact absurd h2 (not_lt.mpr hab)
  · simp [le_of_not_lt h2]

/-- Comparator value when only the left token is absent from the table. -/
theorem viewCmp_eq_one {order : List String} {a b : VEntry}
    (ha : idxOf order (semTok a.view) = -1) (hb : idxOf order (semTok b.view) ≠ -1) :
    viewCmp order a b = 1 := by
  unfold viewCmp
  rw [if_neg (fun hh => hb hh.2), if_pos ha]

/-- Comparator value when only the right token is absent from the table. -/
theorem viewCmp_eq_neg_one {order : List String} {a b : VEntry}
    (ha : idxOf order (semTok a.view) ≠ -1) (hb : idxOf order (semTok b.view) = -1) :
    viewCmp order a b = -1 := by
  unfold viewCmp
  rw [if_neg (fun hh => ha hh.1), if_neg ha, if_pos hb]

/-- Comparator value when both tokens are absent from the table. -/
theorem viewCmp_locale {order : List String} {a b : VEntry}
    (ha : idxOf order (semTok a.view) = -1) (hb : idxOf order (semTok b.view) = -1) :
    viewCmp order a b = localeCmpInt a.view b.view := by
  unfold viewCmp
  rw [if_pos ⟨ha, hb⟩]

/-- Comparator value when both tokens are present in the table. -/
theorem viewCmp_sub {order : List String} {a b : VEntry}
    (ha : idxOf order (semTok a.view) ≠ -1) (hb : idxOf order (semTok b.view) ≠ -1) :
    viewCmp order a b = idxOf order (semTok a.view) - idxOf order (semTok b.view) := by
  unfold viewCmp
  rw [if_neg (fun hh => ha hh.1), if_neg ha, if_neg hb]

/-- The comparator's preorder is total. -/
theorem viewLE_total (order : List String) :
    ∀ a b : VEntry, viewLE order a b ∨ viewLE order b a := by
  intro a b
  unfold viewLE
  by_cases ha : idxOf order (semTok a.view) = -1 <;>
    by_cases hb : idxOf order (semTok b.view) = -1
  · rw [viewCmp_locale ha hb, viewCmp_locale hb ha]
    rcases le_total a.view b.view with h | h
    · exact Or.inl (localeCmpInt_le_zero.mpr h)
    · exact Or.inr (localeCmpInt_le_zero.mpr h)
  · rw [viewCmp_eq_neg_one hb ha]
    exact Or.inr (by norm_num)
  · rw [viewCmp_eq_neg_one ha hb]
    exact Or.inl (by norm_num)
  · rw [viewCmp_sub ha hb, viewCmp_sub hb ha]
    omega

/-- The comparator's preorder is transitive. -/
theorem viewLE_trans (order : List String) :
    ∀ a b c : VEntry, viewLE order a b → viewLE order b c → viewLE order a c := by
  intro a b c hab hbc
  unfold viewLE at hab hbc ⊢
  by_cases ha : idxOf order (semTok a.view) = -1
  · by_cases hb : idxOf order (semTok b.view) = -1
    · by_cases hc : idxOf order (semTok c.view) = -1
      · rw [viewCmp_locale ha hb] at hab
        rw [viewCmp_locale hb hc] at hbc
        rw [viewCmp_locale ha hc]
        exact localeCmpInt_le_zero.mpr
          (le_trans (localeCmpInt_le_zero.mp hab) (localeCmpInt_le_zero.mp hbc))
      · rw [viewCmp_eq_one hb hc] at hbc
        exact absurd hbc (by norm_num)
    · rw [viewCmp_eq_one ha hb] at hab
      exact absurd hab (by norm_num)
  · by_cases hc : idxOf order (semTok c.view) = -1
    · rw [viewCmp_eq_neg_one ha hc]
      norm_num
    · by_cases hb : idxOf order (semTok b.view) = -1
      · rw [viewCmp_eq_one hb hc] at hbc
        exact absurd hbc (by norm_num)
      · rw [viewCmp_sub ha hb] at hab
        rw [viewCmp_sub hb hc] at hbc
        rw [viewCmp_sub ha hc]
        omega

/-- The aggregator's sort always yields a comparator-sorted list. -/
theorem sortViews_sorted (order : List String) (l : List VEntry) :
    List.Sorted (viewLE order) (sortViews order l) := by
  haveI : IsTotal VEntry (viewLE order) := ⟨viewLE_total order⟩
  haveI : IsTrans VEntry (viewLE order) := ⟨viewLE_trans order⟩
  exact List.sorted_insertionSort _ l

/-- C7. The inventory sort is idempotent for any preference table; a
semantic token absent from the table compares strictly after every
present token; ties between two absent tokens compare by the lexicographic
order of the full view key; and the sort's output is always sorted for
the comparator's preorder. -/
theorem inventory_sort_props :
    (∀ (order : List String) (l : List VEntry),
        sortViews order (sortViews order l) = sortViews order l) ∧
    (∀ (order : List String) (a b : VEntry),
        idxOf order (semTok a.view) = -1 → idxOf order (semTok b.view) ≠ -1 →
        viewCmp order a b = 1) ∧
    (∀ (order : List String) (a b : VEntry),
        idxOf order (semTok a.view) = -1 → idxOf order (semTok b.view) = -1 →
        viewCmp order a b = localeCmpInt a.view b.view) ∧
    (∀ (order : List String) (l : List VEntry),
        List.Sorted (viewLE order) (sortViews order l)) := by
  refine ⟨?_, ?_, ?_, sortViews_sorted⟩
  · intro order l
    exact (sortViews_sorted order l).insertionSort_eq
  · intro order a b ha hb
    exact viewCmp_eq_one ha hb
  · intro order a b ha hb
    exact viewCmp_locale ha hb

/-- C7 witness: an unknown token (`box`) compares after a known one
(`main`) under the non-gray preference table. -/
theorem inventory_sort_props_witness :
    viewCmp defaultPreferredOrder ⟨"f", "default_box_1x2"⟩ ⟨"g", "default_main_3x4"⟩ = 1 :=
  inventory_sort_props.2.1 defaultPreferredOrder ⟨"f", "default_box_1x2"⟩
    ⟨"g", "default_main_3x4"⟩ (by decide) (by decide)

/-- Splitting distributes over a separator occurrence. -/
theorem splitOnCharAux_append_sep (c : Char) :
    ∀ (l1 l2 acc : List Char),
      splitOnCharAux c (l1 ++ c :: l2) acc =
        splitOnCharAux c l1 acc ++ splitOnChar c l2 := by
  intro l1
  induction l1 with
  | nil =>
    intro l2 acc
    simp [splitOnCharAux, splitOnChar]
  | cons x xs ih =>
    intro l2 acc
    by_cases hx : x = c
    · simp only [List.cons_append, splitOnCharAux, if_pos hx]
      exact congrArg (fun t => acc.reverse :: t) (ih l2 [])
    · simp only [List.cons_append, splitOnCharAux, if_neg hx]
      exact ih l2 (x :: acc)

/-- Splitting a separator-free list yields one field. -/
theorem splitOnCharAux_no_sep (c : Char) :
    ∀ (l acc : List Char), (∀ x ∈ l, x ≠ c) →
      splitOnCharAux c l acc = [acc.reverse ++ l] := by
  intro l
  induction l with
  | nil => intro acc _; simp [splitOnCharAux]
  | cons x xs ih =>
    intro acc h
    rw [splitOnCharAux, if_neg (h x (List.mem_cons_self x xs))]
    rw [ih (x :: acc) (fun y hy => h y (List.mem_cons_of_mem x hy))]
    simp

/-- Splitting distributes over a separator occurrence (top level). -/
theorem splitOnChar_append_sep (c : Char) (l1 l2 : List Char) :
    splitOnChar c (l1 ++ c :: l2) = splitOnChar c l1 ++ splitOnChar c l2 :=
  splitOnCharAux_append_sep c l1 l2 []

/-- Splitting a separator-free list yields that list alone. -/
theorem splitOnChar_no_sep (c : Char) (l : List Char) (h : ∀ x ∈ l, x ≠ c) :
    splitOnChar c l = [l] := by
  rw [splitOnChar, splitOnCharAux_no_sep c l [] h]
  rfl

/-- Removing the first `.jpg` from `view.jpg` recovers a dotless `view`. -/
theorem removeFirst_jpg (view : List Char) (h : '.' ∉ view) :
    removeFirst ".jpg".data (view ++ ".jpg".data) = view := by
  induction view with
  | nil =>
    simp [removeFirst, List.isPrefixOf]
  | cons x xs ih =>
    have hx : ('.' == x) = false :=
      beq_eq_false_iff_ne.mpr (fun hh => h (hh ▸ List.mem_cons_self x xs))
    rw [List.cons_append, removeFirst]
    rw [if_neg ?_]
    · rw [ih (fun hh => h (List.mem_cons_of_mem x hh))]
    · show ¬(List.isPrefixOf _ _ = true)
      intro hcon
      rw [show (".jpg" : String).data = '.' :: "jpg".data from rfl] at hcon
      simp only [List.isPrefixOf, Bool.and_eq_true] at hcon
      rw [hx] at hcon
      exact absurd hcon.1 (by simp)

/-- C10 (amended). When the dimension probe failed, the inventory
filename `{pid}_{bucket}_{view}.jpg` re-parses with the bucket as the
view token and the semantic view as the dimension segment; width and
height come out empty provided the semantic view token contains no
underscore, no dot and no letter `x`; and for the `default` bucket the
alt text is the bare sanitized title. -/
theorem manifest_parse_no_dim_suffix :
    ∀ (pid bucket view : String) (info : StyleInfo) (style : String) (pos : Nat),
      ('_' ∉ bucket.data) → ('_' ∉ view.data) → ('.' ∉ view.data) → ('x' ∉ view.data) →
      (parseImageFields (pid ++ "_" ++ bucket ++ "_" ++ view ++ ".jpg") =
        ("", "", bucket)) ∧
      (bucket = "default" →
        (mkMRow style info pos (pid ++ "_" ++ bucket ++ "_" ++ view ++ ".jpg")).altText =
          sanitizeText info.title) := by
  intro pid bucket view info style pos hbu hvu hvd hvx
  have hdata : (pid ++ "_" ++ bucket ++ "_" ++ view ++ ".jpg").data =
      pid.data ++ '_' :: (bucket.data ++ '_' :: (view.data ++ ".jpg".data)) := by
    have hu : ("_" : String).data = ['_'] := rfl
    simp [String.data_append, hu]
  have hvj : ∀ x ∈ view.data ++ ".jpg".data, x ≠ '_' := by
    intro x hx
    rcases List.mem_append.mp hx with hx | hx
    · exact fun hh => hvu (hh ▸ hx)
    · have : x = '.' ∨ x = 'j' ∨ x = 'p' ∨ x = 'g' := by simpa using hx
      rcases this with rfl | rfl | rfl | rfl <;> decide
  have hsplit : splitOnChar '_' (pid ++ "_" ++ bucket ++ "_" ++ view ++ ".jpg").data =
      splitOnChar '_' pid.data ++ [bucket.data, view.data ++ ".jpg".data] := by
    rw [hdata, splitOnChar_append_sep, splitOnChar_append_sep,
      splitOnChar_no_sep '_' bucket.data (fun x hx hh => hbu (hh ▸ hx)),
      splitOnChar_no_sep '_' (view.data ++ ".jpg".data) hvj]
    rfl
  have hpartsm : (splitOnChar '_' (pid ++ "_" ++ bucket ++ "_" ++ view ++ ".jpg").data).map
      ofChars =
      (splitOnChar '_' pid.data).map ofChars ++ [bucket, view ++ ".jpg"] := by
    rw [hsplit, List.map_append]
    rfl
  have hlast : ((splitOnChar '_' (pid ++ "_" ++ bucket ++ "_" ++ view ++ ".jpg").data).map
      ofChars).getLastD "" = view ++ ".jpg" := by
    rw [hpartsm,
      show (splitOnChar '_' pid.data).map ofChars ++ [bucket, view ++ ".jpg"] =
        ((splitOnChar '_' pid.data).map ofChars ++ [bucket]) ++ [view ++ ".jpg"] by simp,
      List.getLastD_concat]
  have hdim : lastSegNoJpg ((splitOnChar '_'
      (pid ++ "_" ++ bucket ++ "_" ++ view ++ ".jpg").data).map ofChars) = view := by
    rw [lastSegNoJpg, hlast]
    have : (view ++ ".jpg").data = view.data ++ ".jpg".data := String.data_append _ _
    rw [this, removeFirst_jpg view.data hvd]
    rfl
  have hgetd : ((splitOnChar '_' (pid ++ "_" ++ bucket ++ "_" ++ view ++ ".jpg").data).map
      ofChars).getD
      (((splitOnChar '_' (pid ++ "_" ++ bucket ++ "_" ++ view ++ ".jpg").data).map
        ofChars).length - 2) "" = bucket := by
    rw [hpartsm]
    simp only [List.length_append, List.length_map, List.length_cons, List.length_nil,
      Nat.add_sub_cancel, List.getD_eq_getElem?_getD]
    rw [List.getElem?_append_right (by simp)]
    simp
  have hxf : view.data.contains 'x' = false := by
    rw [Bool.eq_false_iff]
    intro hcon
    exact hvx (List.elem_iff.mp hcon)
  have hpf : parseImageFields (pid ++ "_" ++ bucket ++ "_" ++ view ++ ".jpg") =
      ("", "", bucket) := by
    simp only [parseImageFields]
    rw [hdim, hxf]
    simp only [Bool.false_eq_true, if_false]
    rw [hgetd]
  refine ⟨hpf, ?_⟩
  intro hb
  subst hb
  have hsan : sanitizeText "default" = "default" := rfl
  simp only [mkMRow, hpf, hsan]
  simp

/-- C10 witness: the dotless, x-less view `main` with the `default`
bucket parses to empty width and height with view token `default`. -/
theorem manifest_parse_no_dim_suffix_witness :
    parseImageFields ("A" ++ "_" ++ "default" ++ "_" ++ "main" ++ ".jpg") =
      ("", "", "default") :=
  (manifest_parse_no_dim_suffix "A" "default" "main" ⟨"1", "T"⟩ "S" 1
    (by decide) (by decide) (by decide) (by decide)).1
